import Mathlib

/-!
# Dendritic Gated Network (DGN) — verification of the per-example step

Shallow embedding of `gated_linear_networks/colabs/dendritic_gated_network.ipynb`
(the functions `step_square_loss`, `sigmoid`, `inverse_sigmoid`, `step_bernoulli`).

Arrays are embedded as total index functions `ℕ → ℝ` together with explicit
dimensions; a rank-3 numpy array of shape `(n1, n2, n3)` becomes a `T3`.
Real (IEEE-float) arithmetic is modelled by exact real arithmetic.  The
in-place mutation `w -= …` is modelled by returning the updated tensors.
-/

namespace DGN

/-- A rank-3 tensor: shape `(n1, n2, n3)` plus a total valuation. -/
structure T3 where
  n1 : ℕ
  n2 : ℕ
  n3 : ℕ
  val : ℕ → ℕ → ℕ → ℝ

/-- Default tensor used only as a `getD` fallback. -/
def defT3 : T3 := ⟨0, 0, 0, fun _ _ _ => 0⟩

/-- Dot product of the first `L` coordinates: `a.dot(b)` for 1-D arrays of length `L`. -/
def dotL (L : ℕ) (a b : ℕ → ℝ) : ℝ := ∑ i ∈ Finset.range L, a i * b i

/-- `np.hstack([c, r])`: prepend a scalar to a vector. -/
def consV (c : ℝ) (r : ℕ → ℝ) : ℕ → ℝ := fun i => if i = 0 then c else r (i - 1)

/-- `np.heaviside(x, h0)`: `0` for `x < 0`, `h0` at `x = 0`, `1` for `x > 0`. -/
noncomputable def heaviside (x h0 : ℝ) : ℝ :=
  if x < 0 then 0 else if x = 0 then h0 else 1

/-- `gate_values = np.heaviside(h.dot(side_info), 0).astype(bool)`:
entry `(n, b)` of the gate matrix for hyperplane tensor `h` and side info `s`
(`astype(bool)` sends exactly the nonzero entries to `true`). -/
noncomputable def gateB (h : T3) (s : ℕ → ℝ) : ℕ → ℕ → Bool := fun n b =>
  if heaviside (dotL h.n3 (h.val n b) s) 0 = 0 then false else true

/-- Booleans cast to floats in numpy arithmetic: `True ↦ 1.0`, `False ↦ 0.0`. -/
def bcast (g : Bool) : ℝ := if g then 1 else 0

/-- `effective_weights = gate_values.dot(w).sum(axis=1)`.
For `gate_values` of shape `(N, B)` and `w` of shape `(N, B, K)`, `np.dot`
contracts the last axis of the gate matrix with the second-to-last axis of `w`,
giving shape `(N, N, K)` with entry `[i, j, k] = Σ_b g i b * w j b k`;
`.sum(axis=1)` then sums out `j`. -/
def effectiveWeights (g : ℕ → ℕ → Bool) (w : T3) : ℕ → ℕ → ℝ := fun n k =>
  ∑ j ∈ Finset.range w.n1, ∑ b ∈ Finset.range w.n2, bcast (g n b) * w.val j b k

/-- Modelled from the spec (§4.2 step 3), for comparison with `effectiveWeights`:
`effective_weights[n,:] = Σ_b G[n,b]·W[n,b,:]` — each neuron sums only its own
gated branch weight rows. -/
def specEffectiveWeights (g : ℕ → ℕ → Bool) (w : T3) : ℕ → ℕ → ℝ := fun n k =>
  ∑ b ∈ Finset.range w.n2, bcast (g n b) * w.val n b k

/-- One layer of `step_square_loss`: bias-extend `r_in`, gate, contract, and
(when `update`) apply `w -= learning_rate * gate_values[:,:,None] * grad[:,None]`
with `grad = (r_out[:, None] - target) * r_in[None]`.  Returns the (possibly
updated) weight tensor and `r_out`. -/
noncomputable def layerSquare (w h : T3) (side rin : ℕ → ℝ)
    (lr target : ℝ) (update : Bool) : T3 × (ℕ → ℝ) :=
  let rinb := consV 1 rin
  let g := gateB h side
  let eff := effectiveWeights g w
  let rout := fun n => dotL w.n3 (eff n) rinb
  let w2 :=
    if update then
      ⟨w.n1, w.n2, w.n3, fun n b k =>
        w.val n b k - lr * bcast (g n b) * ((rout n - target) * rinb k)⟩
    else w
  (w2, rout)

/-- The `for w, h in zip(weights, hyperplanes)` loop, abstracted over the layer
body: threads the running activation and collects updated weight tensors. -/
noncomputable def runLayers (f : T3 → T3 → (ℕ → ℝ) → T3 × (ℕ → ℝ)) :
    List (T3 × T3) → (ℕ → ℝ) → List T3 × (ℕ → ℝ)
  | [], rin => ([], rin)
  | (w, h) :: rest, rin =>
    let p := f w h rin
    let q := runLayers f rest p.2
    (p.1 :: q.1, q.2)

/-- `step_square_loss`: returns `(prediction, loss, weights after the call)`.
Weight tensors beyond the zipped range are untouched by the loop, hence
returned unchanged. -/
noncomputable def stepSquareLoss (inputs : ℕ → ℝ) (weights hyperplanes : List T3)
    (biasMag lr target : ℝ) (update : Bool) : ℝ × ℝ × List T3 :=
  let side := consV biasMag inputs
  let q := runLayers (fun w h rin => layerSquare w h side rin lr target update)
    (weights.zip hyperplanes) inputs
  let pred := q.2 0
  (pred, (target - pred) ^ 2 / 2, q.1 ++ weights.drop (weights.zip hyperplanes).length)

/-- `np.logaddexp(a, b) = log(exp a + exp b)` (the numerically stable float
computation realises exactly this real number). -/
noncomputable def logaddexp (a b : ℝ) : ℝ := Real.log (Real.exp a + Real.exp b)

/-- `sigmoid(x) = np.exp(-np.logaddexp(0, -x))`. -/
noncomputable def sigmoid (x : ℝ) : ℝ := Real.exp (-logaddexp 0 (-x))

/-- `inverse_sigmoid(x) = np.log(x/(1-x))`. -/
noncomputable def inverseSigmoid (x : ℝ) : ℝ := Real.log (x / (1 - x))

/-- `np.clip(x, lo, hi) = np.minimum(hi, np.maximum(x, lo))`. -/
noncomputable def clip (x lo hi : ℝ) : ℝ := min (max x lo) hi

/-- One layer of `step_bernoulli`: bias-extend with `sigmoid(1)`, map to
log-odds via `inverse_sigmoid`, gate, contract, squash through the clipped
sigmoid, and (when `update`) apply the gradient masked by
`update_indicator = logical_and(r_out < 1-ε, r_out > ε)`. -/
noncomputable def layerBernoulli (w h : T3) (side rin : ℕ → ℝ)
    (lr eps target : ℝ) (update : Bool) : T3 × (ℕ → ℝ) :=
  let rinb := consV (sigmoid 1) rin
  let hin := fun i => inverseSigmoid (rinb i)
  let g := gateB h side
  let eff := effectiveWeights g w
  let hout := fun n => dotL w.n3 (eff n) hin
  let rout := fun n => clip (sigmoid (hout n)) eps (1 - eps)
  let uind := fun n => if rout n < 1 - eps ∧ eps < rout n then (1 : ℝ) else 0
  let w2 :=
    if update then
      ⟨w.n1, w.n2, w.n3, fun n b k =>
        w.val n b k - lr * bcast (g n b) * ((rout n - target) * hin k * uind n)⟩
    else w
  (w2, rout)

/-- `step_bernoulli`: returns `(prediction, loss, weights after the call)`. -/
noncomputable def stepBernoulli (inputs : ℕ → ℝ) (weights hyperplanes : List T3)
    (biasMag lr eps target : ℝ) (update : Bool) : ℝ × ℝ × List T3 :=
  let rin0 := fun i => clip (sigmoid (inputs i)) eps (1 - eps)
  let side := consV biasMag inputs
  let q := runLayers (fun w h rin => layerBernoulli w h side rin lr eps target update)
    (weights.zip hyperplanes) rin0
  let pred := q.2 0
  (pred, -(target * pred + (1 - target) * (1 - pred)),
    q.1 ++ weights.drop (weights.zip hyperplanes).length)

/-- The Python parameter `target: Optional[float] = None` becomes `Option ℝ`.
The loss line `loss = (target - r_out)**2 / 2` executes unconditionally after
the layer loop and raises a `TypeError` when `target is None` (and with
`update=True` the gradient line raises even earlier), so the call fails —
modelled as `none` — exactly when the target is absent, for either value of
`update`. -/
noncomputable def stepSquareLossChecked (inputs : ℕ → ℝ) (weights hyperplanes : List T3)
    (biasMag lr : ℝ) (target : Option ℝ) (update : Bool) : Option (ℝ × ℝ × List T3) :=
  match target with
  | none => none
  | some t => some (stepSquareLoss inputs weights hyperplanes biasMag lr t update)

/-- As `stepSquareLossChecked`, for `step_bernoulli`: the loss line
`loss = -(target * r_out + (1 - target) * (1 - r_out))` needs the target
unconditionally, so an absent target fails the call for either `update`. -/
noncomputable def stepBernoulliChecked (inputs : ℕ → ℝ) (weights hyperplanes : List T3)
    (biasMag lr eps : ℝ) (target : Option ℝ) (update : Bool) : Option (ℝ × ℝ × List T3) :=
  match target with
  | none => none
  | some t => some (stepBernoulli inputs weights hyperplanes biasMag lr eps t update)

/-- The gate fires exactly on a strictly positive hyperplane dot product:
`np.heaviside(d, 0)` is `1` for `d > 0` and `0` for `d ≤ 0` (the second
argument `0` is the value taken at exactly `d = 0`). -/
theorem gateB_eq_true_iff (h : T3) (s : ℕ → ℝ) (n b : ℕ) :
    gateB h s n b = true ↔ 0 < dotL h.n3 (h.val n b) s := by
  unfold gateB heaviside
  rcases lt_trichotomy (dotL h.n3 (h.val n b) s) 0 with hlt | heq | hgt
  · simp [hlt, not_lt.mpr hlt.le]
  · simp [heq]
  · simp [not_lt.mpr hgt.le, ne_of_gt hgt, hgt]

/-- Replace the single hyperplane row `(n, b)` of `H` by its negation,
leaving every other row (and the shape) unchanged. -/
def negRow (H : T3) (n b : ℕ) : T3 :=
  ⟨H.n1, H.n2, H.n3, fun i j d => if i = n ∧ j = b then -(H.val i j d) else H.val i j d⟩

theorem dotL_neg (L : ℕ) (a s : ℕ → ℝ) : dotL L (fun d => -(a d)) s = -dotL L a s := by
  simp [dotL, neg_mul, Finset.sum_neg_distrib]

/-- C2 counterexample: with the single hyperplane row `[0]` and side info `[1]`,
the hyperplane dot product is exactly `0` — so a `>= 0` (ties-to-one) gate
would be `true` — yet the computed gate is `false`. -/
theorem c2_gate_tie_counterexample :
    dotL 1 ((⟨1, 1, 1, fun _ _ _ => 0⟩ : T3).val 0 0) (fun _ => 1) = 0 ∧
      gateB ⟨1, 1, 1, fun _ _ _ => 0⟩ (fun _ => 1) 0 0 = false := by
  constructor
  · simp [dotL]
  · simp [gateB, heaviside, dotL]

/-- C2 (amended): for every side-information vector `s` and hyperplane tensor
`H`, the gate at `(n, b)` is `true` exactly when `H[n,b,:] · s > 0` — strictly
positive; at a dot product of exactly zero the gate is `false` (ties-to-zero),
since `np.heaviside(·, 0)` returns its second argument `0` there. -/
theorem c2_gate_is_strict_heaviside (h : T3) (s : ℕ → ℝ) (n b : ℕ) :
    gateB h s n b = true ↔ 0 < dotL h.n3 (h.val n b) s :=
  gateB_eq_true_iff h s n b

/-- C3 counterexample: with hyperplane row `(0,0)` equal to `[0]` and side info
`[1]`, the dot product is `0`; negating that row leaves the gate at `(0,0)`
unchanged (`false` both times), so the pattern does NOT differ at `(0,0)` as
the claim requires. -/
theorem c3_negation_flip_counterexample :
    gateB (negRow ⟨1, 1, 1, fun _ _ _ => 0⟩ 0 0) (fun _ => 1) 0 0 =
      gateB ⟨1, 1, 1, fun _ _ _ => 0⟩ (fun _ => 1) 0 0 := by
  simp [gateB, negRow, heaviside, dotL]

theorem gateB_eq_false_iff (h : T3) (s : ℕ → ℝ) (n b : ℕ) :
    gateB h s n b = false ↔ dotL h.n3 (h.val n b) s ≤ 0 := by
  rw [← Bool.not_eq_true, gateB_eq_true_iff, not_lt]

/-- C3 (amended): negating the single hyperplane row `(n, b)` never changes the
gate at any other position, and it flips the gate at `(n, b)` if and only if
that row's dot product with the side information is nonzero (at a dot product
of exactly zero both gates are `false` and nothing flips). -/
theorem c3_negation_flips_iff (H : T3) (s : ℕ → ℝ) (n b : ℕ) :
    (∀ i j, ¬(i = n ∧ j = b) → gateB (negRow H n b) s i j = gateB H s i j) ∧
      (gateB (negRow H n b) s n b ≠ gateB H s n b ↔
        dotL H.n3 (H.val n b) s ≠ 0) := by
  have hneg : dotL (negRow H n b).n3 ((negRow H n b).val n b) s =
      -dotL H.n3 (H.val n b) s := by
    simp [negRow, dotL, neg_mul, Finset.sum_neg_distrib]
  constructor
  · intro i j hij
    unfold gateB negRow
    simp only [hij, if_false]
  · rcases lt_trichotomy (dotL H.n3 (H.val n b) s) 0 with hlt | heq | hgt
    · have h1 : gateB (negRow H n b) s n b = true := by
        rw [gateB_eq_true_iff, hneg]; linarith
      have h2 : gateB H s n b = false := (gateB_eq_false_iff H s n b).mpr hlt.le
      constructor
      · intro _; exact ne_of_lt hlt
      · intro _; rw [h1, h2]; simp
    · have h1 : gateB (negRow H n b) s n b = false := by
        rw [gateB_eq_false_iff, hneg, heq]; simp
      have h2 : gateB H s n b = false := (gateB_eq_false_iff H s n b).mpr heq.le
      constructor
      · intro hne; rw [h1, h2] at hne; exact absurd rfl hne
      · intro hne; exact absurd heq hne
    · have h1 : gateB (negRow H n b) s n b = false := by
        rw [gateB_eq_false_iff, hneg]; linarith
      have h2 : gateB H s n b = true := (gateB_eq_true_iff H s n b).mpr hgt
      constructor
      · intro _; exact ne_of_gt hgt
      · intro _; rw [h1, h2]; simp

/-- Witness for `c3_negation_flips_iff` at a concrete input: hyperplane tensor
with single row `[1]`, side info `[1]` (dot product `1 ≠ 0`), checked at the
off-row position `(1, 0)` and at the negated row `(0, 0)`. -/
theorem c3_negation_flips_iff_witness :
    gateB (negRow ⟨1, 1, 1, fun _ _ _ => 1⟩ 0 0) (fun _ => 1) 1 0 =
        gateB ⟨1, 1, 1, fun _ _ _ => 1⟩ (fun _ => 1) 1 0 ∧
      gateB (negRow ⟨1, 1, 1, fun _ _ _ => 1⟩ 0 0) (fun _ => 1) 0 0 ≠
        gateB ⟨1, 1, 1, fun _ _ _ => 1⟩ (fun _ => 1) 0 0 := by
  refine ⟨(c3_negation_flips_iff ⟨1, 1, 1, fun _ _ _ => 1⟩ (fun _ => 1) 0 0).1 1 0
      (by simp), ?_⟩
  refine (c3_negation_flips_iff ⟨1, 1, 1, fun _ _ _ => 1⟩ (fun _ => 1) 0 0).2.mpr ?_
  simp [dotL]

/-- C1: the coded effective-weight computation `gate_values.dot(w).sum(axis=1)`
sums the gated branch weights of ALL neurons, not only neuron `n`'s own rows.
Failing input: a layer of 2 neurons, 1 branch, width 1, with `W[0,0,:] = [0]`,
`W[1,0,:] = [1]`, hyperplanes all-ones and side info `[1]` (every gate fires).
The code yields `effective_weights[0,0] = W[0,0,0] + W[1,0,0] = 1`, while the
per-neuron formula of the spec yields `Σ_b G[0,b]·W[0,b,0] = 0`: neuron 0's
effective weights depend on neuron 1's weight row. -/
theorem c1_effective_weights_cross_neuron :
    effectiveWeights (gateB ⟨2, 1, 1, fun _ _ _ => 1⟩ (fun _ => 1))
        ⟨2, 1, 1, fun j _ _ => if j = 0 then 0 else 1⟩ 0 0 = 1 ∧
      specEffectiveWeights (gateB ⟨2, 1, 1, fun _ _ _ => 1⟩ (fun _ => 1))
        ⟨2, 1, 1, fun j _ _ => if j = 0 then 0 else 1⟩ 0 0 = 0 := by
  constructor <;>
    norm_num [effectiveWeights, specEffectiveWeights, gateB, heaviside, dotL,
      bcast, Finset.sum_range_succ]

theorem runLayers_length (f : T3 → T3 → (ℕ → ℝ) → T3 × (ℕ → ℝ)) :
    ∀ (L : List (T3 × T3)) (rin : ℕ → ℝ), (runLayers f L rin).1.length = L.length := by
  intro L
  induction L with
  | nil => intro rin; rfl
  | cons p rest ih =>
    intro rin
    obtain ⟨w, h⟩ := p
    simp [runLayers, ih]

theorem runLayers_fst_of_id (f : T3 → T3 → (ℕ → ℝ) → T3 × (ℕ → ℝ))
    (hf : ∀ w h r, (f w h r).1 = w) :
    ∀ (L : List (T3 × T3)) (rin : ℕ → ℝ), (runLayers f L rin).1 = L.map Prod.fst := by
  intro L
  induction L with
  | nil => intro rin; rfl
  | cons p rest ih =>
    intro rin
    obtain ⟨w, h⟩ := p
    simp [runLayers, hf, ih]

theorem runLayers_getD_frame (f : T3 → T3 → (ℕ → ℝ) → T3 × (ℕ → ℝ))
    (n b k : ℕ) (C : T3 → Prop)
    (hf : ∀ w h r, C h → ((f w h r).1).val n b k = w.val n b k) :
    ∀ (L : List (T3 × T3)) (rin : ℕ → ℝ) (l : ℕ), C ((L.getD l (defT3, defT3)).2) →
      (((runLayers f L rin).1).getD l defT3).val n b k =
        ((L.getD l (defT3, defT3)).1).val n b k := by
  intro L
  induction L with
  | nil => intro rin l _; rfl
  | cons p rest ih =>
    intro rin l hC
    obtain ⟨w, h⟩ := p
    cases l with
    | zero => simpa [runLayers] using hf w h rin hC
    | succ m =>
      have := ih (f w h rin).2 m (by simpa using hC)
      simpa [runLayers] using this

theorem runLayers_snd_prop (f : T3 → T3 → (ℕ → ℝ) → T3 × (ℕ → ℝ))
    (Q : (ℕ → ℝ) → Prop) :
    ∀ (L : List (T3 × T3)), (∀ p ∈ L, ∀ r, Q ((f p.1 p.2 r).2)) →
      ∀ (rin : ℕ → ℝ), L ≠ [] → Q ((runLayers f L rin).2) := by
  intro L
  induction L with
  | nil => intro _ rin hne; exact absurd rfl hne
  | cons p rest ih =>
    intro hmem rin _
    obtain ⟨w, h⟩ := p
    cases rest with
    | nil => simpa [runLayers] using hmem (w, h) (by simp) rin
    | cons p2 rest2 =>
      have := ih (fun q hq r => hmem q (List.mem_cons_of_mem _ hq) r)
        ((f w h rin).2) (by simp)
      simpa [runLayers] using this

/-- C6: concrete square-loss scenario.  One layer with 1 neuron, 1 branch,
hyperplane row `[1, 1]`, weights initialised to `[0, 0]`, input `x = 2`,
target `3`, learning rate `0.1`, `update = true`: the gate fires, the biased
input is `[1, 2]`, the returned prediction is `0`, the returned loss is
`4.5 = 9/2`, and the updated weight vector is `[0.3, 0.6] = [3/10, 3/5]`. -/
theorem c6_square_loss_concrete_scenario :
    gateB ⟨1, 1, 2, fun _ _ _ => 1⟩ (consV 1 (fun _ => 2)) 0 0 = true ∧
      consV 1 (fun _ => (2 : ℝ)) 0 = 1 ∧ consV 1 (fun _ => (2 : ℝ)) 1 = 2 ∧
      (stepSquareLoss (fun _ => 2) [⟨1, 1, 2, fun _ _ _ => 0⟩]
        [⟨1, 1, 2, fun _ _ _ => 1⟩] 1 (1 / 10) 3 true).1 = 0 ∧
      (stepSquareLoss (fun _ => 2) [⟨1, 1, 2, fun _ _ _ => 0⟩]
        [⟨1, 1, 2, fun _ _ _ => 1⟩] 1 (1 / 10) 3 true).2.1 = 9 / 2 ∧
      ((stepSquareLoss (fun _ => 2) [⟨1, 1, 2, fun _ _ _ => 0⟩]
        [⟨1, 1, 2, fun _ _ _ => 1⟩] 1 (1 / 10) 3 true).2.2.getD 0 defT3).val 0 0 0
        = 3 / 10 ∧
      ((stepSquareLoss (fun _ => 2) [⟨1, 1, 2, fun _ _ _ => 0⟩]
        [⟨1, 1, 2, fun _ _ _ => 1⟩] 1 (1 / 10) 3 true).2.2.getD 0 defT3).val 0 0 1
        = 3 / 5 := by
  refine ⟨?_, by norm_num [consV], by norm_num [consV], ?_⟩
  · norm_num [gateB, heaviside, dotL, consV, Finset.sum_range_succ]
  · norm_num [stepSquareLoss, runLayers, layerSquare, effectiveWeights, gateB,
      heaviside, dotL, consV, bcast, Finset.sum_range_succ]

/-- `sigmoid(0) = exp(-log(e^0 + e^0)) = exp(-log 2) = 1/2`. -/
theorem sigmoid_zero : sigmoid 0 = 1 / 2 := by
  unfold sigmoid logaddexp
  rw [show -(0 : ℝ) = 0 by ring, Real.exp_zero]
  rw [show (1 : ℝ) + 1 = 2 by ring, Real.exp_neg, Real.exp_log two_pos]
  norm_num

theorem clip_le_hi (x lo hi : ℝ) : clip x lo hi ≤ hi := min_le_right _ _

theorem lo_le_clip (x lo hi : ℝ) (h : lo ≤ hi) : lo ≤ clip x lo hi :=
  le_min (le_max_right x lo) h

theorem clip_sigmoid_zero (eps : ℝ) (heps : eps ≤ 1 / 2) :
    clip (sigmoid 0) eps (1 - eps) = 1 / 2 := by
  rw [sigmoid_zero]
  unfold clip
  rw [max_eq_left heps, min_eq_left (by linarith)]

/-- C4: for the Bernoulli variant with at least one layer (and a clip margin
with `ε ≤ 1 - ε`, as for the default `ε = 0.01`), the prediction returned for
any input, any weight stack and any hyperplane stack lies in `[ε, 1-ε]`:
every layer output — in particular the last — is produced by
`np.clip(sigmoid(·), ε, 1-ε)`. -/
theorem c4_bernoulli_prediction_in_clip_interval (inputs : ℕ → ℝ)
    (weights hyperplanes : List T3) (bm lr eps t : ℝ) (u : Bool)
    (heps : eps ≤ 1 - eps) (hw : weights ≠ []) (hh : hyperplanes ≠ []) :
    eps ≤ (stepBernoulli inputs weights hyperplanes bm lr eps t u).1 ∧
      (stepBernoulli inputs weights hyperplanes bm lr eps t u).1 ≤ 1 - eps := by
  have hzip : weights.zip hyperplanes ≠ [] := by
    apply List.length_pos.mp
    rw [List.length_zip weights hyperplanes]
    exact lt_min (List.length_pos.mpr hw) (List.length_pos.mpr hh)
  have hq := runLayers_snd_prop
    (fun w h rin => layerBernoulli w h (consV bm inputs) rin lr eps t u)
    (fun r => ∀ i, eps ≤ r i ∧ r i ≤ 1 - eps)
    (weights.zip hyperplanes)
    (by
      intro p _ r i
      simp only [layerBernoulli]
      exact ⟨lo_le_clip _ _ _ heps, clip_le_hi _ _ _⟩)
    (fun i => clip (sigmoid (inputs i)) eps (1 - eps)) hzip
  simpa [stepBernoulli] using hq 0

/-- Witness for `c4_bernoulli_prediction_in_clip_interval`: a one-layer
network (1 neuron, 1 branch, width 1) with the default margin `ε = 1/100`. -/
theorem c4_bernoulli_prediction_in_clip_interval_witness :
    (1 : ℝ) / 100 ≤ (stepBernoulli (fun _ => 2) [⟨1, 1, 1, fun _ _ _ => 0⟩]
        [⟨1, 1, 1, fun _ _ _ => 1⟩] 1 (1 / 10) (1 / 100) 1 true).1 ∧
      (stepBernoulli (fun _ => 2) [⟨1, 1, 1, fun _ _ _ => 0⟩]
        [⟨1, 1, 1, fun _ _ _ => 1⟩] 1 (1 / 10) (1 / 100) 1 true).1 ≤ 1 - 1 / 100 :=
  c4_bernoulli_prediction_in_clip_interval (fun _ => 2) _ _ 1 (1 / 10) (1 / 100) 1
    true (by norm_num) (by simp) (by simp)

/-- C7: with every weight tensor identically zero and `update = false`
(any input, any hyperplanes, at least one layer; `ε ≤ 1/2` for the Bernoulli
clip, as for the default `ε = 0.01`), the square-loss step predicts exactly
`0` and the Bernoulli step predicts exactly `sigmoid(0) = 1/2`. -/
theorem c7_zero_weights_prediction (inputs : ℕ → ℝ)
    (weights hyperplanes : List T3) (bm lr eps t : ℝ)
    (hz : ∀ t3 ∈ weights, ∀ n b k, t3.val n b k = 0)
    (hw : weights ≠ []) (hh : hyperplanes ≠ []) (heps : eps ≤ 1 / 2) :
    (stepSquareLoss inputs weights hyperplanes bm lr t false).1 = 0 ∧
      (stepBernoulli inputs weights hyperplanes bm lr eps t false).1 = 1 / 2 := by
  have hzip : weights.zip hyperplanes ≠ [] := by
    apply List.length_pos.mp
    rw [List.length_zip weights hyperplanes]
    exact lt_min (List.length_pos.mpr hw) (List.length_pos.mpr hh)
  constructor
  · have hq := runLayers_snd_prop
      (fun w h rin => layerSquare w h (consV bm inputs) rin lr t false)
      (fun r => ∀ i, r i = 0)
      (weights.zip hyperplanes)
      (by
        intro p hp r i
        have hpw : p.1 ∈ weights := (List.of_mem_zip (by simpa using hp)).1
        simp [layerSquare, dotL, effectiveWeights, hz p.1 hpw])
      inputs hzip
    simpa [stepSquareLoss] using hq 0
  · have hq := runLayers_snd_prop
      (fun w h rin => layerBernoulli w h (consV bm inputs) rin lr eps t false)
      (fun r => ∀ i, r i = 1 / 2)
      (weights.zip hyperplanes)
      (by
        intro p hp r i
        have hpw : p.1 ∈ weights := (List.of_mem_zip (by simpa using hp)).1
        simp [layerBernoulli, dotL, effectiveWeights, hz p.1 hpw,
          clip_sigmoid_zero eps heps])
      (fun i => clip (sigmoid (inputs i)) eps (1 - eps)) hzip
    simpa [stepBernoulli] using hq 0

/-- Witness for `c7_zero_weights_prediction`: a one-layer all-zero-weight
network with `ε = 1/100` predicts `0` (square loss) and `1/2` (Bernoulli). -/
theorem c7_zero_weights_prediction_witness :
    (stepSquareLoss (fun _ => 7) [⟨1, 1, 1, fun _ _ _ => 0⟩]
        [⟨1, 1, 1, fun _ _ _ => 1⟩] 1 (1 / 10) 3 false).1 = 0 ∧
      (stepBernoulli (fun _ => 7) [⟨1, 1, 1, fun _ _ _ => 0⟩]
        [⟨1, 1, 1, fun _ _ _ => 1⟩] 1 (1 / 10) (1 / 100) 3 false).1 = 1 / 2 :=
  c7_zero_weights_prediction (fun _ => 7) _ _ 1 (1 / 10) (1 / 100) 3
    (by intro t3 ht3 n b k; simp at ht3; simp [ht3]) (by simp) (by simp)
    (by norm_num)

theorem zip_getD_of_length_eq (ws hs : List T3) (hlen : ws.length = hs.length) :
    ∀ l : ℕ, (ws.zip hs).getD l (defT3, defT3) = (ws.getD l defT3, hs.getD l defT3) := by
  induction ws generalizing hs with
  | nil =>
    intro l
    have : hs = [] := List.length_eq_zero.mp hlen.symm
    subst this
    rfl
  | cons w ws ih =>
    intro l
    cases hs with
    | nil => exact absurd hlen (by simp)
    | cons h hs =>
      cases l with
      | zero => rfl
      | succ m =>
        simpa using ih hs (by simpa using hlen) m

/-- C5: weight-mutation frame property for both step variants.  With
`update = false` the returned weight stacks equal the input stacks entry for
entry; with `update = true`, within each layer `l`, every weight entry
`W[n,b,:]` whose gate `G[n,b]` (computed from that layer's hyperplanes and the
example's side information) is `false` is returned unchanged. -/
theorem c5_update_frame (inputs : ℕ → ℝ) (weights hyperplanes : List T3)
    (bm lr eps t : ℝ) (hlen : weights.length = hyperplanes.length) :
    (stepSquareLoss inputs weights hyperplanes bm lr t false).2.2 = weights ∧
      (stepBernoulli inputs weights hyperplanes bm lr eps t false).2.2 = weights ∧
      (∀ l n b k, gateB (hyperplanes.getD l defT3) (consV bm inputs) n b = false →
        (((stepSquareLoss inputs weights hyperplanes bm lr t true).2.2).getD l
          defT3).val n b k = (weights.getD l defT3).val n b k) ∧
      (∀ l n b k, gateB (hyperplanes.getD l defT3) (consV bm inputs) n b = false →
        (((stepBernoulli inputs weights hyperplanes bm lr eps t true).2.2).getD l
          defT3).val n b k = (weights.getD l defT3).val n b k) := by
  have hL : weights.length ⊓ hyperplanes.length = weights.length := by simp [hlen]
  have hdrop : weights.drop (weights.length ⊓ hyperplanes.length) = [] := by
    rw [hL]; exact List.drop_length weights
  have hmap : List.map Prod.fst (weights.zip hyperplanes) = weights :=
    List.map_fst_zip weights hyperplanes (le_of_eq hlen)
  refine ⟨?_, ?_, ?_, ?_⟩
  · have h1 := runLayers_fst_of_id
      (fun w h rin => layerSquare w h (consV bm inputs) rin lr t false)
      (fun w h r => by simp [layerSquare]) (weights.zip hyperplanes) inputs
    simp [stepSquareLoss, hdrop, h1, hmap]
  · have h1 := runLayers_fst_of_id
      (fun w h rin => layerBernoulli w h (consV bm inputs) rin lr eps t false)
      (fun w h r => by simp [layerBernoulli]) (weights.zip hyperplanes)
      (fun i => clip (sigmoid (inputs i)) eps (1 - eps))
    simp [stepBernoulli, hdrop, h1, hmap]
  · intro l n b k hg
    have hget := zip_getD_of_length_eq weights hyperplanes hlen l
    have hfr := runLayers_getD_frame
      (fun w h rin => layerSquare w h (consV bm inputs) rin lr t true) n b k
      (fun h3 => gateB h3 (consV bm inputs) n b = false)
      (fun w h r hC => by simp [layerSquare, hC, bcast])
      (weights.zip hyperplanes) inputs l (by rw [hget]; exact hg)
    rw [hget] at hfr
    simpa [stepSquareLoss, hdrop] using hfr
  · intro l n b k hg
    have hget := zip_getD_of_length_eq weights hyperplanes hlen l
    have hfr := runLayers_getD_frame
      (fun w h rin => layerBernoulli w h (consV bm inputs) rin lr eps t true) n b k
      (fun h3 => gateB h3 (consV bm inputs) n b = false)
      (fun w h r hC => by simp [layerBernoulli, hC, bcast])
      (weights.zip hyperplanes)
      (fun i => clip (sigmoid (inputs i)) eps (1 - eps)) l (by rw [hget]; exact hg)
    rw [hget] at hfr
    simpa [stepBernoulli, hdrop] using hfr

/-- Witness for `c5_update_frame`: one layer whose single hyperplane row is
`[-1]` against side info `[1]` (dot product `-1 < 0`, gate off), so the weight
entry keeps its initial value `5` through an `update = true` call — and the
`update = false` stacks are returned whole. -/
theorem c5_update_frame_witness :
    (stepSquareLoss (fun _ => 0) [⟨1, 1, 1, fun _ _ _ => 5⟩]
        [⟨1, 1, 1, fun _ _ _ => -1⟩] 1 (1 / 10) 3 false).2.2
      = [⟨1, 1, 1, fun _ _ _ => 5⟩] ∧
      (((stepSquareLoss (fun _ => 0) [⟨1, 1, 1, fun _ _ _ => 5⟩]
        [⟨1, 1, 1, fun _ _ _ => -1⟩] 1 (1 / 10) 3 true).2.2).getD 0 defT3).val 0 0 0
      = (([⟨1, 1, 1, fun _ _ _ => 5⟩] : List T3).getD 0 defT3).val 0 0 0 := by
  have h := c5_update_frame (fun _ => 0) [⟨1, 1, 1, fun _ _ _ => 5⟩]
    [⟨1, 1, 1, fun _ _ _ => -1⟩] 1 (1 / 10) (1 / 100) 3 (by simp)
  refine ⟨h.1, h.2.2.1 0 0 0 0 ?_⟩
  rw [gateB_eq_false_iff]
  norm_num [dotL, consV, Finset.sum_range_succ]

/-- C8: in the Bernoulli layer update (`update = true`), a neuron whose
clipped output sits exactly at `ε` or exactly at `1-ε` has its gradient zeroed
by `update_indicator = logical_and(r_out < 1-ε, r_out > ε)` — its weight rows
pass through unchanged — while a neuron with output strictly between `ε` and
`1-ε` receives the ordinary gated update. -/
theorem c8_bernoulli_saturated_gradient (w h : T3) (side rin : ℕ → ℝ)
    (lr eps t : ℝ) (n : ℕ) :
    ((layerBernoulli w h side rin lr eps t true).2 n = eps ∨
        (layerBernoulli w h side rin lr eps t true).2 n = 1 - eps →
      ∀ b k, ((layerBernoulli w h side rin lr eps t true).1).val n b k
        = w.val n b k) ∧
      (eps < (layerBernoulli w h side rin lr eps t true).2 n →
        (layerBernoulli w h side rin lr eps t true).2 n < 1 - eps →
        ∀ b k, ((layerBernoulli w h side rin lr eps t true).1).val n b k
          = w.val n b k - lr * bcast (gateB h side n b) *
            (((layerBernoulli w h side rin lr eps t true).2 n - t) *
              inverseSigmoid (consV (sigmoid 1) rin k))) := by
  constructor
  · intro hsat b k
    show w.val n b k - lr * bcast (gateB h side n b) *
        (((layerBernoulli w h side rin lr eps t true).2 n - t) *
          inverseSigmoid (consV (sigmoid 1) rin k) *
          (if (layerBernoulli w h side rin lr eps t true).2 n < 1 - eps ∧
              eps < (layerBernoulli w h side rin lr eps t true).2 n
            then (1 : ℝ) else 0)) = w.val n b k
    rcases hsat with h1 | h1
    · split_ifs with hc
      · exfalso; rw [h1] at hc; exact absurd hc.2 (lt_irrefl eps)
      · ring
    · split_ifs with hc
      · exfalso; rw [h1] at hc; exact absurd hc.1 (lt_irrefl (1 - eps))
      · ring
  · intro hlo hhi b k
    show w.val n b k - lr * bcast (gateB h side n b) *
        (((layerBernoulli w h side rin lr eps t true).2 n - t) *
          inverseSigmoid (consV (sigmoid 1) rin k) *
          (if (layerBernoulli w h side rin lr eps t true).2 n < 1 - eps ∧
              eps < (layerBernoulli w h side rin lr eps t true).2 n
            then (1 : ℝ) else 0)) = _
    rw [if_pos ⟨hhi, hlo⟩]
    ring

/-- Witness for `c8_bernoulli_saturated_gradient`: with `ε = 1/2` the clip
interval collapses, the layer output is exactly `ε`, and the weight entry
(initialised to `1`) survives an `update = true` call unchanged. -/
theorem c8_bernoulli_saturated_gradient_witness :
    ((layerBernoulli ⟨1, 1, 1, fun _ _ _ => 1⟩ ⟨1, 1, 1, fun _ _ _ => 1⟩
        (fun _ => 1) (fun _ => 0) 1 (1 / 2) 1 true).1).val 0 0 0 = 1 := by
  have h := (c8_bernoulli_saturated_gradient ⟨1, 1, 1, fun _ _ _ => 1⟩
    ⟨1, 1, 1, fun _ _ _ => 1⟩ (fun _ => 1) (fun _ => 0) 1 (1 / 2) 1 0).1
  have hout : (layerBernoulli ⟨1, 1, 1, fun _ _ _ => 1⟩ ⟨1, 1, 1, fun _ _ _ => 1⟩
      (fun _ => 1) (fun _ => 0) 1 (1 / 2) 1 true).2 0 = 1 / 2 := by
    show clip _ (1 / 2) (1 - 1 / 2) = 1 / 2
    rw [show (1 : ℝ) - 1 / 2 = 1 / 2 by norm_num]
    exact min_eq_right (le_max_right _ _)
  exact h (Or.inl hout) 0 0

/-- C9: determinism as a two-run property — two calls of either per-example
step with identical inputs, weights, hyperplanes and configuration, with
`update = false`, return identical (prediction, loss) pairs. -/
theorem c9_two_run_determinism (x1 x2 : ℕ → ℝ) (W1 W2 H1 H2 : List T3)
    (bm1 bm2 lr1 lr2 eps1 eps2 t1 t2 : ℝ)
    (hx : x1 = x2) (hW : W1 = W2) (hH : H1 = H2) (hbm : bm1 = bm2)
    (hlr : lr1 = lr2) (heps : eps1 = eps2) (ht : t1 = t2) :
    ((stepSquareLoss x1 W1 H1 bm1 lr1 t1 false).1,
        (stepSquareLoss x1 W1 H1 bm1 lr1 t1 false).2.1)
      = ((stepSquareLoss x2 W2 H2 bm2 lr2 t2 false).1,
        (stepSquareLoss x2 W2 H2 bm2 lr2 t2 false).2.1) ∧
      ((stepBernoulli x1 W1 H1 bm1 lr1 eps1 t1 false).1,
        (stepBernoulli x1 W1 H1 bm1 lr1 eps1 t1 false).2.1)
      = ((stepBernoulli x2 W2 H2 bm2 lr2 eps2 t2 false).1,
        (stepBernoulli x2 W2 H2 bm2 lr2 eps2 t2 false).2.1) := by
  subst hx hW hH hbm hlr heps ht
  exact ⟨rfl, rfl⟩

/-- Witness for `c9_two_run_determinism` at a concrete configuration. -/
theorem c9_two_run_determinism_witness :
    ((stepSquareLoss (fun _ => 2) [⟨1, 1, 2, fun _ _ _ => 0⟩]
        [⟨1, 1, 2, fun _ _ _ => 1⟩] 1 (1 / 10) 3 false).1,
      (stepSquareLoss (fun _ => 2) [⟨1, 1, 2, fun _ _ _ => 0⟩]
        [⟨1, 1, 2, fun _ _ _ => 1⟩] 1 (1 / 10) 3 false).2.1)
    = ((stepSquareLoss (fun _ => 2) [⟨1, 1, 2, fun _ _ _ => 0⟩]
        [⟨1, 1, 2, fun _ _ _ => 1⟩] 1 (1 / 10) 3 false).1,
      (stepSquareLoss (fun _ => 2) [⟨1, 1, 2, fun _ _ _ => 0⟩]
        [⟨1, 1, 2, fun _ _ _ => 1⟩] 1 (1 / 10) 3 false).2.1) ∧
    ((stepBernoulli (fun _ => 2) [⟨1, 1, 2, fun _ _ _ => 0⟩]
        [⟨1, 1, 2, fun _ _ _ => 1⟩] 1 (1 / 10) (1 / 100) 3 false).1,
      (stepBernoulli (fun _ => 2) [⟨1, 1, 2, fun _ _ _ => 0⟩]
        [⟨1, 1, 2, fun _ _ _ => 1⟩] 1 (1 / 10) (1 / 100) 3 false).2.1)
    = ((stepBernoulli (fun _ => 2) [⟨1, 1, 2, fun _ _ _ => 0⟩]
        [⟨1, 1, 2, fun _ _ _ => 1⟩] 1 (1 / 10) (1 / 100) 3 false).1,
      (stepBernoulli (fun _ => 2) [⟨1, 1, 2, fun _ _ _ => 0⟩]
        [⟨1, 1, 2, fun _ _ _ => 1⟩] 1 (1 / 10) (1 / 100) 3 false).2.1) :=
  c9_two_run_determinism (fun _ => 2) (fun _ => 2) _ _ _ _ 1 1 (1 / 10) (1 / 10)
    (1 / 100) (1 / 100) 3 3 rfl rfl rfl rfl rfl rfl rfl

/-- C10: both per-example steps need a target unconditionally — the loss line
runs after the layer loop on every call — so a call with the target absent
fails (returns `none`) for either value of the update flag, while a call with
a target present succeeds. -/
theorem c10_target_required_even_without_update (inputs : ℕ → ℝ)
    (weights hyperplanes : List T3) (bm lr eps : ℝ) (u : Bool) :
    stepSquareLossChecked inputs weights hyperplanes bm lr none u = none ∧
      stepBernoulliChecked inputs weights hyperplanes bm lr eps none u = none ∧
      (∀ t : ℝ, stepSquareLossChecked inputs weights hyperplanes bm lr (some t) u
        = some (stepSquareLoss inputs weights hyperplanes bm lr t u)) ∧
      (∀ t : ℝ, stepBernoulliChecked inputs weights hyperplanes bm lr eps (some t) u
        = some (stepBernoulli inputs weights hyperplanes bm lr eps t u)) :=
  ⟨rfl, rfl, fun _ => rfl, fun _ => rfl⟩

end DGN
